import Mathlib

/-!
Shallow embedding of the `faceless` video pipeline (Python) in Lean 4.

Durations and timestamps are modelled as rationals (`ℚ`); the Python code
performs exact-looking float arithmetic on clip durations, and the properties
of interest are order/arithmetic facts that we state over `ℚ`.

* `src/pipeline/video_assembler.py` — `VideoAssembler.assemble` builds the
  visual track: a first pass over the sourced clips (each clip used for
  `min(duration, remaining, 8.0)` seconds, with a break once the usable span
  drops below 0.5 s or the target is covered), then a loop-fill pass that
  re-uses already-admitted clips until the accumulated duration reaches the
  narration target, and finally a `subclipped(0, min(duration, target))`
  truncation.  Only durations matter for the claims, so a clip is modelled by
  its duration.
* `src/pipeline/visual_sourcer.py` — `VisualSourcer.source` and its cache.
* `src/pipeline/video_assembler.py` — `_chunk_words` / `_add_captions`.
* `src/utils/audio_processor.py` — `mix_audio`.
-/

namespace Faceless

/-! ### Visual track assembly (`VideoAssembler.assemble`, first pass)

`firstPass target ds total` mirrors the `for vc in visual_result.clips` loop:
`remaining = target - total`; break when `remaining <= 0`; otherwise
`use_dur = min(clip.duration, remaining, 8.0)`; break when `use_dur < 0.5`;
otherwise admit the span and continue.  It returns the list of admitted span
durations together with the final accumulated duration. -/
def firstPass (target : ℚ) : List ℚ → ℚ → List ℚ × ℚ
  | [], total => ([], total)
  | d :: ds, total =>
      let remaining := target - total
      if remaining ≤ 0 then ([], total)
      else
        let useDur := min d (min remaining 8)
        if useDur < 1/2 then ([], total)
        else
          let r := firstPass target ds (total + useDur)
          (useDur :: r.1, r.2)

/-- One iteration of the loop-fill `for vc_orig in video_clips.copy()` body:
walk the snapshot of admitted spans, breaking once `total >= target`, and
otherwise appending `min(vc_orig.duration, remaining)` to the clip list. -/
def fillPass (target : ℚ) : List ℚ → List ℚ → ℚ → List ℚ × ℚ
  | [], acc, total => (acc, total)
  | d :: ds, acc, total =>
      if target ≤ total then (acc, total)
      else
        let u := min d (target - total)
        fillPass target ds (acc ++ [u]) (total + u)

/-- The while loop `total_clip_dur < target_duration`, with explicit fuel.
Each iteration folds `fillPass` over a snapshot of the current clip list. -/
def loopFill (target : ℚ) : Nat → List ℚ → ℚ → List ℚ × ℚ
  | 0, acc, total => (acc, total)
  | fuel + 1, acc, total =>
      if total < target then
        let r := fillPass target acc acc total
        loopFill target fuel r.1 r.2
      else (acc, total)

/-- Fuel sufficient for the loop-fill pass: each pass raises the accumulated
duration by at least 1/2 (the minimum admitted span) until the target is hit. -/
def fillFuel (target total : ℚ) : ℕ := (⌈2 * (target - total)⌉).toNat + 1

/-- Whole visual-track construction before truncation: first pass, then the
loop-fill with sufficient fuel.  Returns (span list, accumulated duration). -/
def assembleVisual (target : ℚ) (ds : List ℚ) : List ℚ × ℚ :=
  let fp := firstPass target ds 0
  loopFill target (fillFuel target fp.2) fp.1 fp.2

/-- Duration of the visual track delivered to caption overlay:
`concatenate_videoclips` sums span durations and the final
`subclipped(0, min(final_video.duration, target_duration))` truncates. -/
def visualDuration (target : ℚ) (ds : List ℚ) : ℚ :=
  min (assembleVisual target ds).1.sum target

/-! ### Visual sourcing (`src/pipeline/visual_sourcer.py`)

A sourced clip carries its cache path, native duration and search keyword.
Filesystem state is the video-cache directory: the metadata records
(`<cache_key>.json`, newest write first) and the set of media files present.
The provider interaction (`_search_pexels` / `_search_pixabay` followed by
`_download_clip`) is abstracted by an oracle mapping `(source, keyword)` to a
`SearchOutcome`, which distinguishes a failed search (no download request
ever leaves the machine) from an issued download request that fails (nothing
is cached) and from a completed download (media file and metadata written);
`hashlib.md5(f"{source}:{keyword}").hexdigest()` is modelled by the (equally
pure, injective up to the same `:` ambiguity) encoded pre-image string. -/

structure VideoClip where
  path : String
  duration : ℚ
  keyword : String
deriving DecidableEq

structure ClipMeta where
  path : String
  duration : ℚ
  keyword : String
deriving DecidableEq

structure FS where
  metas : List (String × ClipMeta)
  files : List String
deriving DecidableEq

/-- The cache key `md5(f"{source}:{keyword}")`, modelled by the pre-image. -/
def cacheKey (source keyword : String) : String := source ++ ":" ++ keyword

/-- Reading `<cache_key>.json` when it exists: the most recent write wins. -/
def lookupMeta (fs : FS) (key : String) : Option ClipMeta :=
  (fs.metas.find? (fun p => p.1 == key)).map (·.2)

/-- Outcome of one provider interaction, separating the three network paths
of `_search_pexels`/`_search_pixabay` + `_download_clip`:
`searchFail` — the search request failed or returned no usable hit, so no
download request was ever issued; `downloadFail` — the search found a file
and `_download_clip` issued `requests.get(url)` (lines 178–185), but it
failed, so the metadata write at line 188 is never reached and nothing is
cached (a partial media file may be left behind, but with no metadata record
it never validates a cache entry, so the filesystem model omits it);
`success` — the download completed and `<key>.mp4` plus `<key>.json` were
written. -/
inductive SearchOutcome
  | searchFail
  | downloadFail
  | success (duration : ℚ)
deriving DecidableEq

/-- Result of `_search_and_download`: the returned clip (or `None`), the
filesystem afterwards, whether the provider-search path was taken at all
(`attempted`), whether a download request was issued (`issued`), and whether
that download completed and wrote the cache (`downloaded`). -/
structure SDResult where
  clip : Option VideoClip
  fs : FS
  attempted : Bool
  issued : Bool
  downloaded : Bool
deriving DecidableEq

/-- The cache-miss path: provider search plus `_download_clip`.  A failed
search issues no download; a failed download was issued but cached nothing;
a completed download writes `<cache_key>.mp4` and then the metadata record. -/
def freshSearch (oracle : String → String → SearchOutcome) (fs : FS)
    (keyword source : String) : SDResult :=
  let key := cacheKey source keyword
  match oracle source keyword with
  | .searchFail => ⟨none, fs, true, false, false⟩
  | .downloadFail => ⟨none, fs, true, true, false⟩
  | .success dur =>
      let path := key ++ ".mp4"
      ⟨some ⟨path, dur, keyword⟩,
        ⟨(key, ⟨path, dur, keyword⟩) :: fs.metas, path :: fs.files⟩,
        true, true, true⟩

/-- Mirror of `_search_and_download`: if the metadata record exists and the media file
it references still exists, reuse the cached clip; otherwise fall through to
a fresh provider search. -/
def searchAndDownload (oracle : String → String → SearchOutcome) (fs : FS)
    (keyword source : String) : SDResult :=
  match lookupMeta fs (cacheKey source keyword) with
  | some m =>
      if fs.files.contains m.path then
        ⟨some ⟨m.path, m.duration, keyword⟩, fs, false, false, false⟩
      else freshSearch oracle fs keyword source
  | none => freshSearch oracle fs keyword source

/-- Python `int()` on a rational: truncation toward zero. -/
def truncInt (q : ℚ) : ℤ := if q < 0 then ⌈q⌉ else ⌊q⌋

/-- Computation `needed_clips = max(3, int(target_duration / clip_target))` with
`clip_target = 5.0` (line 58–59 of `visual_sourcer.py`). -/
def neededClips (target : ℚ) : ℕ := (max 3 (truncInt (target / 5))).toNat

/-- Why `VisualSourcer.source` stopped looping. -/
inductive ExitReason
  | targetMet
  | budget
  | satisfied
deriving DecidableEq

/-- Final state of one sourcing call: accumulated clips, their total native
duration, the filesystem, two ghost download logs — `dls` records one entry
per *completed* `(source, keyword)` download, `idls` one entry per *issued*
download request (completed or not) — the final keyword index, and the exit
reason. -/
structure SourceState where
  clips : List VideoClip
  total : ℚ
  fs : FS
  dls : List (String × String)
  idls : List (String × String)
  ki : Nat
  reason : ExitReason
deriving DecidableEq

/-- The while loop `total_duration < target_duration and keyword_index < 2 * len`
loop of `VisualSourcer.source`.  `fuel` counts the remaining round-robin
budget (`2 * len(keywords) - keyword_index`); keywords cycle via
`keyword_index % len(keywords)`, the provider alternates via the incremented
index modulo the configured source count, and the loop breaks early once both
the clip count and the accumulated duration reach their thresholds. -/
def sourceLoop (oracle : String → String → SearchOutcome)
    (sources keywords : List String) (target : ℚ) (needed : ℕ) :
    Nat → Nat → List VideoClip → ℚ → FS → List (String × String) →
      List (String × String) → SourceState
  | 0, ki, clips, total, fs, dls, idls =>
      if target ≤ total then ⟨clips, total, fs, dls, idls, ki, .targetMet⟩
      else ⟨clips, total, fs, dls, idls, ki, .budget⟩
  | fuel + 1, ki, clips, total, fs, dls, idls =>
      if target ≤ total then ⟨clips, total, fs, dls, idls, ki, .targetMet⟩
      else
        let kw := keywords.getD (ki % keywords.length) ""
        let ki' := ki + 1
        let src := sources.getD (ki' % sources.length) ""
        let r := searchAndDownload oracle fs kw src
        let dls' := if r.downloaded then dls ++ [(src, kw)] else dls
        let idls' := if r.issued then idls ++ [(src, kw)] else idls
        match r.clip with
        | none =>
            sourceLoop oracle sources keywords target needed fuel ki' clips total
              r.fs dls' idls'
        | some c =>
            let clips' := clips ++ [c]
            let total' := total + c.duration
            if needed ≤ clips'.length ∧ target ≤ total' then
              ⟨clips', total', r.fs, dls', idls', ki', .satisfied⟩
            else
              sourceLoop oracle sources keywords target needed fuel ki' clips' total'
                r.fs dls' idls'

/-- Mirror of `VisualSourcer.source`: fall back to the default keywords when extraction
yields none, loop with budget `2 * len(keywords)`, and raise (`none`) exactly
when no clip at all was sourced. -/
def sourceModel (oracle : String → String → SearchOutcome)
    (sources keywords0 : List String)
    (target : ℚ) (fs : FS) : Option (List VideoClip) × SourceState :=
  let keywords := if keywords0.isEmpty then ["nature", "abstract", "landscape"] else keywords0
  let st := sourceLoop oracle sources keywords target (neededClips target)
    (2 * keywords.length) 0 [] 0 fs [] []
  (if st.clips.isEmpty then none else some st.clips, st)

/-- Concrete run for the C2 counterexample: one keyword with a completed
100 s download, target 10; clip-target threshold needs 3 clips. -/
def c2Oracle : String → String → SearchOutcome :=
  fun src kw =>
    if src = "pexels" ∧ kw = "a" then SearchOutcome.success 100
    else SearchOutcome.searchFail

/-- Concrete run for the C9 counterexample: keyword `a` always reaches the
download step and its download always fails (nothing cached), keyword `b`
downloads successfully. -/
def c9Oracle : String → String → SearchOutcome :=
  fun _ kw =>
    if kw = "a" then SearchOutcome.downloadFail
    else if kw = "b" then SearchOutcome.success 1
    else SearchOutcome.searchFail

/-! ### C9: cache-key purity and at most one download per pair -/

/-- The cache holds a valid entry for the `(source, keyword)` pair `p`:
its metadata record exists and the media file it references exists. -/
def validFor (fs : FS) (p : String × String) : Prop :=
  ∃ m, lookupMeta fs (cacheKey p.1 p.2) = some m ∧ fs.files.contains m.path = true

/-! ### Caption chunking (`VideoAssembler._chunk_words`, `_add_captions`)

A word timestamp is Whisper's `word`/`start`/`end` triple (`end` is a Lean
keyword, so the field is `endTime`).  `_chunk_words` walks `words[i:i+4]`
windows: each chunk's text joins the window's words with single spaces, its
start is the window's first word's start and its end the window's last
word's end. -/

structure WordTimestamp where
  word : String
  start : ℚ
  endTime : ℚ
deriving DecidableEq, Inhabited

structure Chunk where
  text : String
  start : ℚ
  endTime : ℚ
deriving DecidableEq

/-- Mirror of `_chunk_words(words, max_words=4)`: greedy fixed-size windows of 4. -/
def chunkWords : List WordTimestamp → List Chunk
  | [] => []
  | w :: ws =>
      { text := String.intercalate " " ((w :: ws.take 3).map (fun x => x.word)),
        start := w.start,
        endTime := ((w :: ws.take 3).getLastD default).endTime } :: chunkWords (ws.drop 3)
termination_by l => l.length
decreasing_by
  simp only [List.length_drop, List.length_cons]
  omega

/-- The windows themselves (`words[i:i+4]`), for stating the partition. -/
def chunkGroups : List WordTimestamp → List (List WordTimestamp)
  | [] => []
  | w :: ws => (w :: ws.take 3) :: chunkGroups (ws.drop 3)
termination_by l => l.length
decreasing_by
  simp only [List.length_drop, List.length_cons]
  omega

/-- The chunk built from one window. -/
def mkChunk (g : List WordTimestamp) : Chunk :=
  { text := String.intercalate " " (g.map (fun x => x.word)),
    start := (g.headD default).start,
    endTime := (g.getLastD default).endTime }

/-! ### C6: at most one active caption chunk; frames without captions -/

/-- The activity test `chunk["start"] <= t <= chunk["end"]` of the
frame-query closure in `_add_captions`. -/
def chunkActive (c : Chunk) (t : ℚ) : Bool :=
  decide (c.start ≤ t) && decide (t ≤ c.endTime)

/-- The scan `for chunk in chunks: if start <= t <= end: break` — the first
active chunk, if any. -/
def findActiveChunk (chunks : List Chunk) (t : ℚ) : Option Chunk :=
  chunks.find? (fun c => chunkActive c t)

/-- The frame-query closure `make_frame_with_caption`: if no chunk is active,
the frame from the underlying video is returned unmodified; otherwise the
Pillow caption drawing (abstracted by `render`) is applied to it. -/
def renderFrame {Frame : Type} (render : Chunk → Frame → Frame)
    (getFrame : ℚ → Frame) (chunks : List Chunk) (t : ℚ) : Frame :=
  match findActiveChunk chunks t with
  | none => getFrame t
  | some c => render c (getFrame t)

/-- Strict separation of consecutive word spans. -/
def wordGap (a b : WordTimestamp) : Prop := a.endTime < b.start

/-- Strict separation of consecutive caption chunks. -/
def chunkGap (a b : Chunk) : Prop := a.endTime < b.start

/-- The concrete word list for the C6 counterexample: spans touch at every
word boundary, so times are monotonically non-decreasing but not strictly
separated; the boundary between the 4th and 5th word is also a chunk
boundary. -/
def c6Words : List WordTimestamp :=
  [⟨"w0", 0, 1⟩, ⟨"w1", 1, 2⟩, ⟨"w2", 2, 3⟩, ⟨"w3", 3, 4⟩,
   ⟨"w4", 4, 5⟩, ⟨"w5", 5, 6⟩, ⟨"w6", 6, 7⟩, ⟨"w7", 7, 8⟩]

/-! ### Audio mixing (`src/utils/audio_processor.py`, `mix_audio`)

Audio clips are modelled symbolically, so that "the voice track is
composited unmodified" and "the music layer is volume-scaled" are visible in
the term structure.  `loop n a` is `concatenate_audioclips([a] * n)`,
`subclip a t` is `a.subclipped(0, t)`, `volume a f` is
`a.with_volume_scaled(f)` and `mixLayers v m` is
`CompositeAudioClip([v, m])`. -/

inductive Audio
  | file (name : String) (duration : ℚ)
  | loop (count : ℕ) (a : Audio)
  | subclip (a : Audio) (tEnd : ℚ)
  | volume (a : Audio) (factor : ℚ)
  | mixLayers (voice music : Audio)
deriving DecidableEq

/-- Durations of the symbolic audio operations: looping multiplies, a
subclip `(0, t)` truncates to `t` (never beyond the source), volume scaling
preserves duration, and a composite lasts as long as its longest layer. -/
def Audio.duration : Audio → ℚ
  | .file _ d => d
  | .loop n a => n * a.duration
  | .subclip a t => min t a.duration
  | .volume a _ => a.duration
  | .mixLayers v m => max v.duration m.duration

/-- The loop count `loops_needed = int(target_duration / music.duration) + 1`. -/
def loopsNeeded (target musicDur : ℚ) : ℕ :=
  (truncInt (target / musicDur)).toNat + 1

/-- Mirror of `mix_audio(voice_clip, music_path, music_volume, target_duration)`. -/
def mix_audio (voice : Audio) (musicPath : String) (musicDur : ℚ)
    (musicVolume target : ℚ) : Audio :=
  let music := Audio.file musicPath musicDur
  let music := if musicDur < target then
      Audio.loop (loopsNeeded target musicDur) music
    else music
  let music := Audio.subclip music target
  let music := Audio.volume music musicVolume
  Audio.mixLayers voice music

/-- Lines 94–97 of `video_assembler.py`: mix in music only when a path is
configured and the file exists, otherwise keep the raw voice track. -/
def finalAudio (voice : Audio) (musicPath : Option String)
    (musicExists : String → Bool) (musicDur musicVolume target : ℚ) : Audio :=
  match musicPath with
  | some p =>
      if musicExists p then mix_audio voice p musicDur musicVolume target
      else voice
  | none => voice

/-! ### Video export (`VideoAssembler.assemble`, lines 105–129)

`write_videofile` is abstracted by a success predicate on the attempted
codec/preset pair; the attempt list records every call. -/

structure EncodeAttempt where
  codec : String
  preset : String
deriving DecidableEq

/-- The export logic: try `h264_nvenc`/`fast` when `use_nvenc` else
`libx264`/`medium`; on failure retry once with `libx264`/`medium` only when
`use_nvenc` was set, otherwise re-raise.  Returns whether an output was
produced and the list of encoder attempts made. -/
def exportVideo (useNvenc : Bool) (encodeOk : EncodeAttempt → Bool) :
    Bool × List EncodeAttempt :=
  let first : EncodeAttempt :=
    { codec := if useNvenc then "h264_nvenc" else "libx264",
      preset := if useNvenc then "fast" else "medium" }
  if encodeOk first then (true, [first])
  else if useNvenc then
    (encodeOk ⟨"libx264", "medium"⟩, [first, ⟨"libx264", "medium"⟩])
  else (false, [first])

/-! ### Theorems -/

/-! ### Lemmas about the first pass -/

theorem firstPass_sum (target : ℚ) :
    ∀ (ds : List ℚ) (t0 : ℚ),
      (firstPass target ds t0).2 = t0 + (firstPass target ds t0).1.sum := by
  intro ds
  induction ds with
  | nil => intro t0; simp [firstPass]
  | cons d ds ih =>
      intro t0
      simp only [firstPass]
      by_cases h1 : target - t0 ≤ 0
      · rw [if_pos h1]; simp
      · rw [if_neg h1]
        by_cases h2 : min d (min (target - t0) 8) < 1/2
        · rw [if_pos h2]; simp
        · rw [if_neg h2]
          simp only [List.sum_cons]
          rw [ih (t0 + min d (min (target - t0) 8))]
          ring

theorem firstPass_all_ge (target : ℚ) :
    ∀ (ds : List ℚ) (t0 : ℚ) (u : ℚ),
      u ∈ (firstPass target ds t0).1 → 1/2 ≤ u := by
  intro ds
  induction ds with
  | nil => intro t0 u h; simp [firstPass] at h
  | cons d ds ih =>
      intro t0 u h
      simp only [firstPass] at h
      by_cases h1 : target - t0 ≤ 0
      · rw [if_pos h1] at h; simp at h
      · rw [if_neg h1] at h
        by_cases h2 : min d (min (target - t0) 8) < 1/2
        · rw [if_pos h2] at h; simp at h
        · rw [if_neg h2] at h
          simp only [List.mem_cons] at h
          rcases h with h | h
          · subst h; linarith [not_lt.mp h2]
          · exact ih _ _ h

theorem firstPass_le (target : ℚ) :
    ∀ (ds : List ℚ) (t0 : ℚ),
      ((firstPass target ds t0).1 = [] ∧ (firstPass target ds t0).2 = t0) ∨
        (firstPass target ds t0).2 ≤ target := by
  intro ds
  induction ds with
  | nil => intro t0; exact Or.inl ⟨rfl, rfl⟩
  | cons d ds ih =>
      intro t0
      simp only [firstPass]
      by_cases h1 : target - t0 ≤ 0
      · rw [if_pos h1]; exact Or.inl ⟨rfl, rfl⟩
      · rw [if_neg h1]
        by_cases h2 : min d (min (target - t0) 8) < 1/2
        · rw [if_pos h2]; exact Or.inl ⟨rfl, rfl⟩
        · rw [if_neg h2]
          right
          have hle : t0 + min d (min (target - t0) 8) ≤ target := by
            have : min d (min (target - t0) 8) ≤ target - t0 := by
              calc min d (min (target - t0) 8) ≤ min (target - t0) 8 :=
                    min_le_right _ _
                _ ≤ target - t0 := min_le_left _ _
            linarith
          rcases ih (t0 + min d (min (target - t0) 8)) with ⟨_, h⟩ | h
          · rw [h]; exact hle
          · exact h

/-! ### Lemmas about the loop-fill pass -/

theorem fillPass_stop (target : ℚ) (ds acc : List ℚ) (total : ℚ)
    (h : target ≤ total) : fillPass target ds acc total = (acc, total) := by
  cases ds with
  | nil => rfl
  | cons d ds => simp only [fillPass]; rw [if_pos h]

theorem fillPass_append (target : ℚ) :
    ∀ (ds acc : List ℚ) (total : ℚ),
      ∃ ext, (fillPass target ds acc total).1 = acc ++ ext := by
  intro ds
  induction ds with
  | nil => intro acc total; exact ⟨[], by simp [fillPass]⟩
  | cons d ds ih =>
      intro acc total
      simp only [fillPass]
      by_cases h : target ≤ total
      · rw [if_pos h]; exact ⟨[], by simp⟩
      · rw [if_neg h]
        obtain ⟨ext, hext⟩ :=
          ih (acc ++ [min d (target - total)]) (total + min d (target - total))
        exact ⟨min d (target - total) :: ext, by simp [hext]⟩

theorem fillPass_sum (target : ℚ) :
    ∀ (ds acc : List ℚ) (total : ℚ), acc.sum = total →
      (fillPass target ds acc total).1.sum = (fillPass target ds acc total).2 := by
  intro ds
  induction ds with
  | nil => intro acc total h; simpa [fillPass] using h
  | cons d ds ih =>
      intro acc total h
      simp only [fillPass]
      by_cases hg : target ≤ total
      · rw [if_pos hg]; simpa using h
      · rw [if_neg hg]
        exact ih _ _ (by simp [h])

theorem fillPass_le (target : ℚ) :
    ∀ (ds acc : List ℚ) (total : ℚ), total ≤ target →
      (fillPass target ds acc total).2 ≤ target := by
  intro ds
  induction ds with
  | nil => intro acc total h; simpa [fillPass] using h
  | cons d ds ih =>
      intro acc total h
      simp only [fillPass]
      by_cases hg : target ≤ total
      · rw [if_pos hg]; simpa using h
      · rw [if_neg hg]
        exact ih _ _ (by
          have := min_le_right d (target - total); linarith)

theorem fillPass_mono (target : ℚ) :
    ∀ (ds acc : List ℚ) (total : ℚ), (∀ d ∈ ds, 0 ≤ d) →
      total ≤ (fillPass target ds acc total).2 := by
  intro ds
  induction ds with
  | nil => intro acc total _; simp [fillPass]
  | cons d ds ih =>
      intro acc total hnn
      simp only [fillPass]
      by_cases hg : target ≤ total
      · rw [if_pos hg]
      · rw [if_neg hg]
        have hd : (0:ℚ) ≤ d := hnn d (List.mem_cons_self d ds)
        have hrem : (0:ℚ) < target - total := by linarith [not_le.mp hg]
        have hu : 0 ≤ min d (target - total) := le_min hd (le_of_lt hrem)
        have htail := ih (acc ++ [min d (target - total)])
          (total + min d (target - total)) (fun x hx => hnn x (List.mem_cons_of_mem d hx))
        linarith

theorem fillPass_progress (target : ℚ) (d : ℚ) (ds acc : List ℚ) (total : ℚ)
    (hlt : total < target) (hd : 1/2 ≤ d) (hnn : ∀ x ∈ ds, 0 ≤ x) :
    (fillPass target (d :: ds) acc total).2 = target ∨
      total + 1/2 ≤ (fillPass target (d :: ds) acc total).2 := by
  simp only [fillPass]
  rw [if_neg (not_le.mpr hlt)]
  by_cases hcase : target - total ≤ d
  · left
    have hmin : min d (target - total) = target - total := min_eq_right hcase
    rw [hmin]
    have : total + (target - total) = target := by ring
    rw [this, fillPass_stop target ds _ target le_rfl]
  · right
    have hmin : min d (target - total) = d := min_eq_left (le_of_lt (not_le.mp hcase))
    rw [hmin]
    have := fillPass_mono target ds (acc ++ [d]) (total + d) hnn
    linarith

theorem fillPass_nonneg (target : ℚ) :
    ∀ (ds acc : List ℚ) (total : ℚ), (∀ x ∈ ds, 0 ≤ x) → (∀ x ∈ acc, 0 ≤ x) →
      ∀ x ∈ (fillPass target ds acc total).1, 0 ≤ x := by
  intro ds
  induction ds with
  | nil => intro acc total _ hacc; simpa [fillPass] using hacc
  | cons d ds ih =>
      intro acc total hds hacc
      simp only [fillPass]
      by_cases hg : target ≤ total
      · rw [if_pos hg]; simpa using hacc
      · rw [if_neg hg]
        refine ih _ _ (fun x hx => hds x (List.mem_cons_of_mem d hx)) ?_
        intro x hx
        rcases List.mem_append.mp hx with hx | hx
        · exact hacc x hx
        · have hd : (0:ℚ) ≤ d := hds d (List.mem_cons_self d ds)
          have hrem : (0:ℚ) < target - total := by linarith [not_le.mp hg]
          simp only [List.mem_singleton] at hx
          subst hx
          exact le_min hd (le_of_lt hrem)

/-! ### Lemmas about the while loop -/

theorem loopFill_sum (target : ℚ) :
    ∀ (fuel : Nat) (acc : List ℚ) (total : ℚ), acc.sum = total →
      (loopFill target fuel acc total).1.sum = (loopFill target fuel acc total).2 := by
  intro fuel
  induction fuel with
  | zero => intro acc total h; simpa [loopFill] using h
  | succ fuel ih =>
      intro acc total h
      simp only [loopFill]
      by_cases hg : total < target
      · rw [if_pos hg]
        exact ih _ _ (fillPass_sum target acc acc total h)
      · rw [if_neg hg]; simpa using h

theorem loopFill_reaches (target : ℚ) :
    ∀ (fuel : Nat) (acc : List ℚ) (total h0 : ℚ),
      acc.head? = some h0 → 1/2 ≤ h0 → (∀ x ∈ acc, 0 ≤ x) →
      total ≤ target → fillFuel target total ≤ fuel →
      (loopFill target fuel acc total).2 = target := by
  intro fuel
  induction fuel with
  | zero =>
      intro acc total h0 _ _ _ _ hfuel
      exact absurd hfuel (by simp [fillFuel])
  | succ fuel ih =>
      intro acc total h0 hhead hh0 hnn hle hfuel
      simp only [loopFill]
      by_cases hg : total < target
      · rw [if_pos hg]
        obtain ⟨rest, hacc⟩ : ∃ rest, acc = h0 :: rest := by
          cases acc with
          | nil => simp at hhead
          | cons a l => simp only [List.head?_cons, Option.some.injEq] at hhead
                        exact ⟨l, by rw [hhead]⟩
        set r := fillPass target acc acc total with hr
        have hnn' : ∀ x ∈ acc, 0 ≤ x := hnn
        have hprog : r.2 = target ∨ total + 1/2 ≤ r.2 := by
          rw [hr, hacc]
          exact fillPass_progress target h0 rest (h0 :: rest) total hg hh0
            (fun x hx => hnn x (by rw [hacc]; exact List.mem_cons_of_mem h0 hx))
        have hrle : r.2 ≤ target := fillPass_le target acc acc total hle
        have hrhead : r.1.head? = some h0 := by
          obtain ⟨ext, hext⟩ := fillPass_append target acc acc total
          rw [hr, hext, hacc]; rfl
        have hrnn : ∀ x ∈ r.1, 0 ≤ x := fillPass_nonneg target acc acc total hnn hnn
        -- fuel accounting
        have hceil1 : (1:ℤ) ≤ ⌈2 * (target - total)⌉ := by
          have : (0:ℚ) < 2 * (target - total) := by linarith
          exact Int.ceil_pos.mpr this
        rcases hprog with hprog | hprog
        · -- the pass reached the target exactly; remaining fuel suffices
          refine ih r.1 r.2 h0 hrhead hh0 hrnn hrle ?_
          rw [hprog]
          simp only [fillFuel, sub_self, mul_zero, Int.ceil_zero, Int.toNat_zero]
          simp only [fillFuel] at hfuel
          omega
        · -- the pass gained at least 1/2; the ceiling measure drops by ≥ 1
          refine ih r.1 r.2 h0 hrhead hh0 hrnn hrle ?_
          have hstep : ⌈2 * (target - r.2)⌉ ≤ ⌈2 * (target - total)⌉ - 1 := by
            have h1 : 2 * (target - r.2) ≤ 2 * (target - total) - 1 := by linarith
            calc ⌈2 * (target - r.2)⌉ ≤ ⌈2 * (target - total) - 1⌉ :=
                  Int.ceil_le_ceil h1
              _ = ⌈2 * (target - total)⌉ - 1 := by
                  rw [show (1:ℚ) = ((1:ℤ):ℚ) by norm_num, Int.ceil_sub_int]
          simp only [fillFuel] at hfuel ⊢
          omega
      · rw [if_neg hg]
        exact le_antisymm hle (not_lt.mp hg)

theorem assembleVisual_def (target : ℚ) (ds : List ℚ) :
    assembleVisual target ds =
      loopFill target (fillFuel target (firstPass target ds 0).2)
        (firstPass target ds 0).1 (firstPass target ds 0).2 := rfl

/-- As soon as the first pass admits at least one span, the loop-fill pass
drives both the accumulated duration and the sum of all span durations to
exactly the target. -/
theorem assembleVisual_total (target : ℚ) (ds : List ℚ)
    (hne : (firstPass target ds 0).1 ≠ []) :
    (assembleVisual target ds).1.sum = target ∧
      (assembleVisual target ds).2 = target := by
  cases hl : (firstPass target ds 0).1 with
  | nil => exact absurd hl hne
  | cons h0 rest =>
      have hh0 : 1/2 ≤ h0 :=
        firstPass_all_ge target ds 0 h0 (by rw [hl]; exact List.mem_cons_self _ _)
      have hnn : ∀ x ∈ (firstPass target ds 0).1, 0 ≤ x := fun x hx =>
        le_trans (by norm_num) (firstPass_all_ge target ds 0 x hx)
      have hle : (firstPass target ds 0).2 ≤ target := by
        rcases firstPass_le target ds 0 with ⟨h1, _⟩ | h
        · exact absurd h1 (by rw [hl]; simp)
        · exact h
      have hhead : (firstPass target ds 0).1.head? = some h0 := by rw [hl]; rfl
      have hsum : (firstPass target ds 0).1.sum = (firstPass target ds 0).2 := by
        have := firstPass_sum target ds 0
        linarith
      have h2 := loopFill_reaches target (fillFuel target (firstPass target ds 0).2)
        (firstPass target ds 0).1 (firstPass target ds 0).2 h0 hhead hh0 hnn hle le_rfl
      have h3 := loopFill_sum target (fillFuel target (firstPass target ds 0).2)
        (firstPass target ds 0).1 (firstPass target ds 0).2 hsum
      rw [assembleVisual_def]
      exact ⟨by rw [h3, h2], h2⟩

/-- C1. For every non-empty clip list whose first usable span
`min(duration, target, 8)` is at least 0.5 s and every positive target
duration, the visual track built by `VideoAssembler.assemble` (concatenation
of all admitted spans, truncated by `subclipped(0, min(duration, target))`,
before caption overlay) has duration exactly equal to the narration target —
in particular within one frame interval, never less and never more — also
when the loop-fill pass has to re-use already-admitted clips. -/
theorem c1_assembled_visual_duration_eq_target (d0 : ℚ) (ds : List ℚ)
    (target : ℚ) (htarget : 0 < target) (hspan : 1/2 ≤ min d0 (min target 8)) :
    visualDuration target (d0 :: ds) = target := by
  have hne : (firstPass target (d0 :: ds) 0).1 ≠ [] := by
    have hc1 : ¬ (target - 0 ≤ 0) := by rw [sub_zero]; exact not_le.mpr htarget
    have hc2 : ¬ (min d0 (min (target - 0) 8) < 1/2) := by
      rw [sub_zero]; exact not_lt.mpr hspan
    simp only [firstPass]
    rw [if_neg hc1, if_neg hc2]
    simp
  have h := assembleVisual_total target (d0 :: ds) hne
  unfold visualDuration
  rw [h.1, min_self]

/-- Witness for C1 at the concrete input `clips = [3], target = 10`. -/
theorem c1_assembled_visual_duration_eq_target_witness :
    0 < (10:ℚ) ∧ 1/2 ≤ min (3:ℚ) (min 10 8) ∧ visualDuration 10 [3] = 10 :=
  ⟨by norm_num, by norm_num [min_def],
    c1_assembled_visual_duration_eq_target 3 [] 10 (by norm_num) (by norm_num [min_def])⟩

/-- C10. The loop-fill pass terminates for every finite clip list and
finite target: every span admitted by the first pass is at least 0.5 s long,
and (whenever the first pass admits any span, so that the Python loop is
reached at all) the fuelled loop-fill drives the accumulated duration to the
target exactly — i.e. the `while total_clip_dur < target_duration` loop
exits. -/
theorem c10_loop_fill_terminates (target : ℚ) (ds : List ℚ) :
    (∀ u ∈ (firstPass target ds 0).1, 1/2 ≤ u) ∧
      ((firstPass target ds 0).1 ≠ [] → (assembleVisual target ds).2 = target) := by
  refine ⟨fun u hu => firstPass_all_ge target ds 0 u hu, fun hne => ?_⟩
  exact (assembleVisual_total target ds hne).2

/-- Witness for C10 at the concrete input `clips = [3], target = 10`. -/
theorem c10_loop_fill_terminates_witness :
    (firstPass 10 [(3:ℚ)] 0).1 ≠ [] ∧ (assembleVisual 10 [(3:ℚ)]).2 = 10 :=
  ⟨by norm_num [firstPass, min_def],
    (c10_loop_fill_terminates 10 [(3:ℚ)]).2 (by norm_num [firstPass, min_def])⟩

/-! ### C3: the needed-clip count -/

theorem neededClips_ge_three (t : ℚ) : 3 ≤ neededClips t := by
  unfold neededClips
  have h : (3:ℤ) ≤ max 3 (truncInt (t / 5)) := le_max_left _ _
  omega

/-- C3, counterexample. The claim computes the needed clip count with a
ceiling: `max(3, ceil(target/5))`.  The code uses Python `int()`, which
truncates: at `target = 21` the code yields `max(3, 4) = 4` while the claimed
formula yields `max(3, 5) = 5`; the code's count is not strictly greater than
`floor(21/5) = 4` either. -/
theorem c3_counterexample :
    neededClips 21 = 4 ∧ (max 3 ⌈(21:ℚ)/5⌉).toNat = 5 := by
  constructor
  · have h : truncInt ((21:ℚ) / 5) = 4 := by
      unfold truncInt
      rw [if_neg (by norm_num)]
      norm_num
    unfold neededClips
    rw [h]
    decide
  · have h : (⌈(21:ℚ)/5⌉ : ℤ) = 5 := by
      rw [Int.ceil_eq_iff]
      constructor <;> norm_num
    rw [h]
    decide

/-- C3, amended. For every non-negative target duration the needed clip
count is `max(3, floor(target/5))` (Python `int()` truncation, not a
ceiling), and it is always at least 3. -/
theorem c3_needed_clips_floor (target : ℚ) (h : 0 ≤ target) :
    neededClips target = (max 3 ⌊target / 5⌋).toNat ∧ 3 ≤ neededClips target := by
  refine ⟨?_, neededClips_ge_three target⟩
  unfold neededClips truncInt
  rw [if_neg (not_lt.mpr (by positivity))]

/-- Witness for the amended C3 at `target = 21`. -/
theorem c3_needed_clips_floor_witness :
    0 ≤ (21:ℚ) ∧ neededClips 21 = (max 3 ⌊(21:ℚ) / 5⌋).toNat ∧ 3 ≤ neededClips 21 :=
  ⟨by norm_num, (c3_needed_clips_floor 21 (by norm_num)).1,
    (c3_needed_clips_floor 21 (by norm_num)).2⟩

/-! ### C2: the sourcing contract -/

theorem sourceLoop_satisfied (oracle : String → String → SearchOutcome)
    (sources keywords : List String) (target : ℚ) (needed : ℕ) :
    ∀ (fuel ki : Nat) (clips : List VideoClip) (total : ℚ) (fs : FS)
      (dls idls : List (String × String)) (st : SourceState),
      sourceLoop oracle sources keywords target needed fuel ki clips total fs dls idls
        = st →
      st.reason = ExitReason.satisfied →
      needed ≤ st.clips.length ∧ target ≤ st.total := by
  intro fuel
  induction fuel with
  | zero =>
      intro ki clips total fs dls idls st hst hr
      simp only [sourceLoop] at hst
      split at hst <;> (subst hst; simp at hr)
  | succ fuel ih =>
      intro ki clips total fs dls idls st hst hr
      simp only [sourceLoop] at hst
      split at hst
      · subst hst; simp at hr
      · split at hst
        · exact ih _ _ _ _ _ _ _ hst hr
        · split at hst
          · next hcond =>
              subst hst
              exact hcond
          · exact ih _ _ _ _ _ _ _ hst hr

/-- C2, amended. Whenever `VisualSourcer.source` returns without raising,
the returned clip list is non-empty; and whenever the loop stopped via the
early `break`, both stop conditions indeed held: at least `neededClips`
(hence at least 3) clips were accumulated and their combined native duration
is at least the target.  (The original claim's unconditional "at least 3
clips and combined duration ≥ target" fails: the loop also exits via the
`while` condition once `total_duration ≥ target_duration`, possibly with
fewer than 3 clips, and via budget exhaustion with any non-empty clip list —
see the counterexample.) -/
theorem c2_source_contract (oracle : String → String → SearchOutcome)
    (sources keywords0 : List String) (target : ℚ) (fs : FS) :
    (∀ cs, (sourceModel oracle sources keywords0 target fs).1 = some cs → cs ≠ []) ∧
      ((sourceModel oracle sources keywords0 target fs).2.reason = ExitReason.satisfied →
        3 ≤ (sourceModel oracle sources keywords0 target fs).2.clips.length ∧
        neededClips target ≤ (sourceModel oracle sources keywords0 target fs).2.clips.length ∧
        target ≤ (sourceModel oracle sources keywords0 target fs).2.total) := by
  constructor
  · intro cs hcs
    have hfst : (sourceModel oracle sources keywords0 target fs).1 =
        if (sourceModel oracle sources keywords0 target fs).2.clips.isEmpty then none
        else some (sourceModel oracle sources keywords0 target fs).2.clips := rfl
    rw [hfst] at hcs
    split at hcs
    · exact Option.noConfusion hcs
    · next hne =>
        have hcs' := Option.some.inj hcs
        intro hnil
        rw [hnil] at hcs'
        exact hne (by rw [hcs']; rfl)
  · intro hr
    simp only [sourceModel] at hr ⊢
    have h := sourceLoop_satisfied oracle _ _ target (neededClips target)
      _ 0 [] 0 fs [] [] _ rfl hr
    exact ⟨le_trans (neededClips_ge_three target) h.1, h.1, h.2⟩

/-- C2, counterexample. With keywords `["a", "b"]` (budget `2×2 = 4`),
one provider hit of native duration 100 and target 10, `source` returns
without raising after a single iteration (`keyword_index = 1 < 4`), holding
exactly one clip — fewer than the claimed minimum of 3 — because the `while`
condition `total_duration < target_duration` stopped the loop before the
break condition `len(clips) ≥ needed_clips` ever held. -/
theorem c2_counterexample :
    (sourceModel c2Oracle ["pexels"] ["a", "b"] 10 ⟨[], []⟩).1.isSome = true ∧
      (sourceModel c2Oracle ["pexels"] ["a", "b"] 10 ⟨[], []⟩).2.clips.length = 1 ∧
      (sourceModel c2Oracle ["pexels"] ["a", "b"] 10 ⟨[], []⟩).2.ki = 1 ∧
      2 * (["a", "b"] : List String).length = 4 ∧
      neededClips 10 = 3 := by
  have hneed : neededClips 10 = 3 := by
    have hfl : (⌊(10:ℚ)/5⌋ : ℤ) = 2 := by norm_num
    unfold neededClips truncInt
    rw [if_neg (by norm_num), hfl]
    decide
  refine ⟨?_, ?_, ?_, rfl, hneed⟩ <;>
    norm_num [sourceModel, sourceLoop, searchAndDownload, freshSearch, lookupMeta,
      cacheKey, c2Oracle, hneed]

/-- Witness for the amended C2, at the counterexample's concrete input. -/
theorem c2_source_contract_witness :
    (∀ cs, (sourceModel c2Oracle ["pexels"] ["a", "b"] 10 ⟨[], []⟩).1 = some cs →
      cs ≠ []) := by
  intro cs hcs
  exact (c2_source_contract c2Oracle ["pexels"] ["a", "b"] 10 ⟨[], []⟩).1 cs hcs

/-! ### C4: cache hit/miss discipline of `_search_and_download` -/

theorem freshSearch_attempted (oracle : String → String → SearchOutcome) (fs : FS)
    (keyword source : String) : (freshSearch oracle fs keyword source).attempted = true := by
  unfold freshSearch
  cases oracle source keyword <;> rfl

/-- C4. A `(provider, keyword)` lookup is served from the cache with no
network access (`attempted = false`) iff both the metadata record and the
media file it references exist; in that case the cached clip is returned and
the filesystem is untouched.  A stale record (metadata present, file missing)
falls through to the fresh provider search exactly as a plain miss does; the
model is a total function, so the stale path never produces an error. -/
theorem c4_stale_cache_is_miss (oracle : String → String → SearchOutcome) (fs : FS)
    (keyword source : String) :
    ((searchAndDownload oracle fs keyword source).attempted = false ↔
      ∃ m, lookupMeta fs (cacheKey source keyword) = some m ∧
        fs.files.contains m.path = true) ∧
    (∀ m, lookupMeta fs (cacheKey source keyword) = some m →
      fs.files.contains m.path = true →
      searchAndDownload oracle fs keyword source =
        ⟨some ⟨m.path, m.duration, keyword⟩, fs, false, false, false⟩) ∧
    (∀ m, lookupMeta fs (cacheKey source keyword) = some m →
      fs.files.contains m.path = false →
      searchAndDownload oracle fs keyword source =
        freshSearch oracle fs keyword source) := by
  unfold searchAndDownload
  cases hml : lookupMeta fs (cacheKey source keyword) with
  | none =>
      dsimp only
      refine ⟨?_, ?_, ?_⟩
      · rw [freshSearch_attempted]
        simp
      · intro m hm; exact absurd hm (by simp)
      · intro m hm; exact absurd hm (by simp)
  | some m0 =>
      dsimp only
      by_cases hc : fs.files.contains m0.path = true
      · rw [if_pos hc]
        refine ⟨?_, ?_, ?_⟩
        · simp only [true_iff]
          exact ⟨m0, rfl, hc⟩
        · intro m hm hcm
          obtain rfl : m0 = m := Option.some.inj hm
          rfl
        · intro m hm hcm
          obtain rfl : m0 = m := Option.some.inj hm
          rw [hc] at hcm
          exact Bool.noConfusion hcm
      · rw [if_neg hc]
        refine ⟨?_, ?_, ?_⟩
        · rw [freshSearch_attempted]
          constructor
          · intro h; exact Bool.noConfusion h
          · rintro ⟨m, hm, hcm⟩
            obtain rfl : m0 = m := Option.some.inj hm
            exact absurd hcm hc
        · intro m hm hcm
          obtain rfl : m0 = m := Option.some.inj hm
          exact absurd hcm hc
        · intro m hm hcm; rfl

/-- Witness for C4: a populated cache entry whose media file exists is served
from the cache, with no provider search. -/
theorem c4_stale_cache_is_miss_witness :
    (searchAndDownload (fun _ _ => SearchOutcome.searchFail)
        ⟨[("pexels:cat", ⟨"pexels:cat.mp4", 7, "cat"⟩)], ["pexels:cat.mp4"]⟩
        "cat" "pexels").attempted = false :=
  (c4_stale_cache_is_miss (fun _ _ => SearchOutcome.searchFail)
      ⟨[("pexels:cat", ⟨"pexels:cat.mp4", 7, "cat"⟩)], ["pexels:cat.mp4"]⟩
      "cat" "pexels").1.mpr
    ⟨⟨"pexels:cat.mp4", 7, "cat"⟩, by simp [lookupMeta, cacheKey], by simp⟩

theorem searchAndDownload_downloaded_valid (oracle : String → String → SearchOutcome)
    (fs : FS) (kw src : String)
    (h : (searchAndDownload oracle fs kw src).downloaded = true) :
    validFor (searchAndDownload oracle fs kw src).fs (src, kw) := by
  have hfresh : ∀ r : SDResult, r = freshSearch oracle fs kw src →
      r.downloaded = true → validFor r.fs (src, kw) := by
    intro r hr hdl
    unfold freshSearch at hr
    cases horacle : oracle src kw with
    | searchFail => rw [horacle] at hr; subst hr; exact Bool.noConfusion hdl
    | downloadFail => rw [horacle] at hr; subst hr; exact Bool.noConfusion hdl
    | success dur =>
        rw [horacle] at hr
        subst hr
        refine ⟨⟨cacheKey src kw ++ ".mp4", dur, kw⟩, ?_, ?_⟩
        · simp [lookupMeta]
        · simp [List.contains]
  unfold searchAndDownload at h ⊢
  cases hml : lookupMeta fs (cacheKey src kw) with
  | none =>
      rw [hml] at h
      exact hfresh _ rfl h
  | some m0 =>
      rw [hml] at h
      dsimp only at h ⊢
      by_cases hc : fs.files.contains m0.path = true
      · rw [if_pos hc] at h
        exact Bool.noConfusion h
      · rw [if_neg hc] at h ⊢
        exact hfresh _ rfl h

theorem searchAndDownload_valid_hit (oracle : String → String → SearchOutcome)
    (fs : FS) (kw src : String) (h : validFor fs (src, kw)) :
    (searchAndDownload oracle fs kw src).downloaded = false ∧
      (searchAndDownload oracle fs kw src).fs = fs := by
  obtain ⟨m, hm, hc⟩ := h
  unfold searchAndDownload
  rw [hm]
  dsimp only
  rw [if_pos hc]
  exact ⟨rfl, rfl⟩

theorem validFor_mono (oracle : String → String → SearchOutcome) (fs : FS)
    (kw src : String) (p : String × String) (h : validFor fs p) :
    validFor (searchAndDownload oracle fs kw src).fs p := by
  have hfresh : validFor (freshSearch oracle fs kw src).fs p := by
    unfold freshSearch
    cases horacle : oracle src kw with
    | searchFail => exact h
    | downloadFail => exact h
    | success dur =>
        obtain ⟨m, hm, hc⟩ := h
        dsimp only
        by_cases hkey : cacheKey src kw = cacheKey p.1 p.2
        · refine ⟨⟨cacheKey src kw ++ ".mp4", dur, kw⟩, ?_, ?_⟩
          · simp [lookupMeta, hkey]
          · simp [List.contains]
        · refine ⟨m, ?_, ?_⟩
          · simp only [lookupMeta, List.find?]
            have : (cacheKey src kw == cacheKey p.1 p.2) = false := by
              simp [hkey]
            rw [this]
            exact hm
          · simp only [List.contains, List.elem]
            cases hbe : m.path == cacheKey src kw ++ ".mp4"
            · exact hc
            · rfl
  unfold searchAndDownload
  cases hml : lookupMeta fs (cacheKey src kw) with
  | none => exact hfresh
  | some m0 =>
      dsimp only
      by_cases hc : fs.files.contains m0.path = true
      · rw [if_pos hc]; exact h
      · rw [if_neg hc]; exact hfresh

theorem sourceLoop_dls_nodup (oracle : String → String → SearchOutcome)
    (sources keywords : List String) (target : ℚ) (needed : ℕ) :
    ∀ (fuel ki : Nat) (clips : List VideoClip) (total : ℚ) (fs : FS)
      (dls idls : List (String × String)) (st : SourceState),
      sourceLoop oracle sources keywords target needed fuel ki clips total fs dls idls
        = st →
      (∀ p ∈ dls, validFor fs p) → dls.Nodup → st.dls.Nodup := by
  intro fuel
  induction fuel with
  | zero =>
      intro ki clips total fs dls idls st hst hval hnd
      simp only [sourceLoop] at hst
      split at hst <;> (subst hst; exact hnd)
  | succ fuel ih =>
      intro ki clips total fs dls idls st hst hval hnd
      simp only [sourceLoop] at hst
      split at hst
      · subst hst; exact hnd
      · set kw := keywords.getD (ki % keywords.length) "" with hkw
        set src := sources.getD ((ki + 1) % sources.length) "" with hsrc
        set r := searchAndDownload oracle fs kw src with hrdef
        by_cases hdl : r.downloaded = true
        · rw [if_pos hdl] at hst
          have hnotin : (src, kw) ∉ dls := by
            intro hmem
            have hhit := searchAndDownload_valid_hit oracle fs kw src (hval _ hmem)
            rw [← hrdef] at hhit
            rw [hhit.1] at hdl
            exact Bool.noConfusion hdl
          have hval' : ∀ p ∈ dls ++ [(src, kw)], validFor r.fs p := by
            intro p hp
            rcases List.mem_append.mp hp with hp | hp
            · exact validFor_mono oracle fs kw src p (hval p hp)
            · simp only [List.mem_singleton] at hp
              subst hp
              exact searchAndDownload_downloaded_valid oracle fs kw src hdl
          have hnd' : (dls ++ [(src, kw)]).Nodup := by
            rw [List.nodup_append]
            exact ⟨hnd, List.nodup_singleton _, by
              intro a ha hb
              simp only [List.mem_singleton] at hb
              subst hb
              exact hnotin ha⟩
          split at hst
          · exact ih _ _ _ _ _ _ _ hst hval' hnd'
          · split at hst
            · subst hst; exact hnd'
            · exact ih _ _ _ _ _ _ _ hst hval' hnd'
        · rw [if_neg hdl] at hst
          have hval' : ∀ p ∈ dls, validFor r.fs p := fun p hp =>
            validFor_mono oracle fs kw src p (hval p hp)
          split at hst
          · exact ih _ _ _ _ _ _ _ hst hval' hnd
          · split at hst
            · subst hst; exact hnd
            · exact ih _ _ _ _ _ _ _ hst hval' hnd

/-- C9, amended. The cache key is a pure, deterministic function of the
`(provider, keyword)` pair — equal inputs give equal keys — and within one
sourcing call each `(provider, keyword)` pair *completes* at most one network
download: the completed-download ghost log of `VisualSourcer.source` never
contains a pair twice, because a completed download writes both the metadata
record and the media file, so every later query of the same pair is served
from the cache.  (The original claim's "issues at most one network download"
fails: a download that is issued but fails writes nothing, so the
round-robin's second visit to that pair misses the cache and issues a second
download request — see the counterexample.) -/
theorem c9_cache_pure_one_download (oracle : String → String → SearchOutcome)
    (sources keywords0 : List String) (target : ℚ) (fs : FS) :
    (∀ s k s' k', s = s' → k = k' → cacheKey s k = cacheKey s' k') ∧
      (sourceModel oracle sources keywords0 target fs).2.dls.Nodup := by
  constructor
  · intro s k s' k' hs hk
    rw [hs, hk]
  · have hsnd : (sourceModel oracle sources keywords0 target fs).2 =
        sourceLoop oracle sources
          (if keywords0.isEmpty then ["nature", "abstract", "landscape"] else keywords0)
          target (neededClips target)
          (2 * (if keywords0.isEmpty then ["nature", "abstract", "landscape"]
            else keywords0).length) 0 [] 0 fs [] [] := rfl
    rw [hsnd]
    exact sourceLoop_dls_nodup oracle _ _ target (neededClips target)
      _ 0 [] 0 fs [] [] _ rfl (by intro p hp; exact absurd hp (List.not_mem_nil p))
      List.nodup_nil

/-- Witness for the amended C9 at a concrete oracle and starting state. -/
theorem c9_cache_pure_one_download_witness :
    cacheKey "pexels" "cat" = cacheKey "pexels" "cat" ∧
      (sourceModel (fun _ _ => SearchOutcome.success 4) ["pexels"] ["cat"] 9
        ⟨[], []⟩).2.dls.Nodup :=
  ⟨(c9_cache_pure_one_download (fun _ _ => SearchOutcome.success 4) ["pexels"] ["cat"] 9
      ⟨[], []⟩).1 "pexels" "cat" "pexels" "cat" rfl rfl,
    (c9_cache_pure_one_download (fun _ _ => SearchOutcome.success 4) ["pexels"] ["cat"] 9
      ⟨[], []⟩).2⟩

/-- C9, counterexample. Keywords `["a", "b"]` with a single source: keyword
`a`'s search always finds a file but its download always fails (so nothing is
cached), keyword `b` downloads fine.  The round-robin visits `a` at
`keyword_index` 0 and 2; both visits miss the cache and issue a download
request, so the issued-download log holds `("pexels", "a")` twice within one
sourcing call — refuting "issues at most one network download" — while the
completed-download log holds only `("pexels", "b")` once (its second visit is
the cache hit), and the call still returns without raising. -/
theorem c9_counterexample :
    (sourceModel c9Oracle ["pexels"] ["a", "b"] 10 ⟨[], []⟩).1.isSome = true ∧
      (sourceModel c9Oracle ["pexels"] ["a", "b"] 10 ⟨[], []⟩).2.idls =
        [("pexels", "a"), ("pexels", "b"), ("pexels", "a")] ∧
      (sourceModel c9Oracle ["pexels"] ["a", "b"] 10 ⟨[], []⟩).2.dls =
        [("pexels", "b")] := by
  have hneed : neededClips 10 = 3 := by
    have hfl : (⌊(10:ℚ)/5⌋ : ℤ) = 2 := by norm_num
    unfold neededClips truncInt
    rw [if_neg (by norm_num), hfl]
    decide
  have hA : ((10:ℚ) ≤ 0) = False := by norm_num
  have hB : ((10:ℚ) ≤ 0 + 1) = False := by norm_num
  have hC : ((10:ℚ) ≤ 1) = False := by norm_num
  have hD : ((10:ℚ) ≤ 1 + 1) = False := by norm_num
  refine ⟨?_, ?_, ?_⟩ <;>
    simp [sourceModel, sourceLoop, searchAndDownload, freshSearch, lookupMeta,
      cacheKey, c9Oracle, hneed, hA, hB, hC, hD]

theorem chunkWords_cons (w : WordTimestamp) (ws : List WordTimestamp) :
    chunkWords (w :: ws) =
      { text := String.intercalate " " ((w :: ws.take 3).map (fun x => x.word)),
        start := w.start,
        endTime := ((w :: ws.take 3).getLastD default).endTime } ::
        chunkWords (ws.drop 3) := by
  rw [chunkWords]

theorem chunkGroups_cons (w : WordTimestamp) (ws : List WordTimestamp) :
    chunkGroups (w :: ws) = (w :: ws.take 3) :: chunkGroups (ws.drop 3) := by
  rw [chunkGroups]

/-- C5. For every word list, `_chunk_words` with `max_words = 4` yields
exactly `⌈N/4⌉` chunks (`(N+3)/4` in ℕ); the underlying windows are a
partition of the words in order (their concatenation is the input, each
window non-empty with at most 4 words); and each chunk is its window's words
joined by single spaces with start/end taken from the window's first/last
word. -/
theorem c5_chunk_words_partition (ws : List WordTimestamp) :
    (chunkWords ws).length = (ws.length + 3) / 4 ∧
      (chunkGroups ws).flatten = ws ∧
      (∀ g ∈ chunkGroups ws, g ≠ [] ∧ g.length ≤ 4) ∧
      chunkWords ws = (chunkGroups ws).map mkChunk := by
  have main : ∀ (n : Nat) (l : List WordTimestamp), l.length ≤ n →
      (chunkWords l).length = (l.length + 3) / 4 ∧
        (chunkGroups l).flatten = l ∧
        (∀ g ∈ chunkGroups l, g ≠ [] ∧ g.length ≤ 4) ∧
        chunkWords l = (chunkGroups l).map mkChunk := by
    intro n
    induction n with
    | zero =>
        intro l hlen
        have hnil : l = [] := List.eq_nil_of_length_eq_zero (Nat.le_zero.mp hlen)
        subst hnil
        refine ⟨by simp [chunkWords], by rw [chunkGroups]; rfl, ?_, ?_⟩
        · intro g hg; rw [chunkGroups] at hg; exact absurd hg (List.not_mem_nil g)
        · rw [chunkWords, chunkGroups]; rfl
    | succ n ih =>
        intro l hlen
        cases l with
        | nil =>
            refine ⟨by simp [chunkWords], by rw [chunkGroups]; rfl, ?_, ?_⟩
            · intro g hg; rw [chunkGroups] at hg; exact absurd hg (List.not_mem_nil g)
            · rw [chunkWords, chunkGroups]; rfl
        | cons w ws' =>
            have hdrop : (ws'.drop 3).length ≤ n := by
              simp only [List.length_drop]
              simp only [List.length_cons] at hlen
              omega
            obtain ⟨ih1, ih2, ih3, ih4⟩ := ih (ws'.drop 3) hdrop
            refine ⟨?_, ?_, ?_, ?_⟩
            · rw [chunkWords_cons]
              simp only [List.length_cons, ih1, List.length_drop]
              omega
            · rw [chunkGroups_cons]
              simp only [List.flatten_cons, ih2]
              simp [List.take_append_drop]
            · intro g hg
              rw [chunkGroups_cons] at hg
              rcases List.mem_cons.mp hg with hg | hg
              · subst hg
                refine ⟨by simp, ?_⟩
                simp only [List.length_cons]
                have := List.length_take_le 3 ws'
                omega
              · exact ih3 g hg
            · rw [chunkWords_cons, chunkGroups_cons]
              simp only [List.map_cons, ih4]
              rfl
  exact main ws.length ws le_rfl

/-- Witness for C5 at a concrete five-word list: 5 words make ⌈5/4⌉ = 2
chunks. -/
theorem c5_chunk_words_partition_witness :
    (chunkWords [⟨"a", 0, 1⟩, ⟨"b", (2:ℚ), 3⟩, ⟨"c", 4, 5⟩, ⟨"d", 6, 7⟩,
        ⟨"e", 8, 9⟩]).length =
      (([⟨"a", 0, 1⟩, ⟨"b", (2:ℚ), 3⟩, ⟨"c", 4, 5⟩, ⟨"d", 6, 7⟩,
        ⟨"e", 8, 9⟩] : List WordTimestamp).length + 3) / 4 :=
  (c5_chunk_words_partition [⟨"a", 0, 1⟩, ⟨"b", (2:ℚ), 3⟩, ⟨"c", 4, 5⟩,
    ⟨"d", 6, 7⟩, ⟨"e", 8, 9⟩]).1

theorem getLastD_cons_cons (w y : WordTimestamp) (l : List WordTimestamp)
    (d : WordTimestamp) :
    (w :: y :: l).getLastD d = (y :: l).getLastD d := by
  simp [List.getLastD_cons]

theorem head_start_le_lastD_end :
    ∀ (l : List WordTimestamp) (w : WordTimestamp),
      (∀ x ∈ w :: l, x.start ≤ x.endTime) → List.Chain' wordGap (w :: l) →
      w.start ≤ ((w :: l).getLastD default).endTime := by
  intro l
  induction l with
  | nil =>
      intro w hse _
      exact hse w (List.mem_cons_self w [])
  | cons y l ih =>
      intro w hse hch
      rw [getLastD_cons_cons]
      have hch' := (List.chain'_cons.mp hch)
      have h1 : w.start ≤ w.endTime := hse w (List.mem_cons_self w _)
      have h2 : w.endTime < y.start := hch'.1
      have h3 : y.start ≤ ((y :: l).getLastD default).endTime :=
        ih y (fun x hx => hse x (List.mem_cons_of_mem w hx)) hch'.2
      linarith

theorem getLast?_cons_eq_getLastD (w : WordTimestamp) (l : List WordTimestamp) :
    (w :: l).getLast? = some ((w :: l).getLastD default) := by
  rw [List.getLastD_eq_getLast?]
  cases h : (w :: l).getLast? with
  | none => exact absurd (List.getLast?_eq_none_iff.mp h) (List.cons_ne_nil w l)
  | some z => rfl

theorem chunkWords_wf_chain :
    ∀ (n : Nat) (l : List WordTimestamp), l.length ≤ n →
      (∀ x ∈ l, x.start ≤ x.endTime) → List.Chain' wordGap l →
      (∀ c ∈ chunkWords l, c.start ≤ c.endTime) ∧
        List.Chain' chunkGap (chunkWords l) ∧
        (∀ c, (chunkWords l).head? = some c → ∃ w, l.head? = some w ∧ c.start = w.start) := by
  intro n
  induction n with
  | zero =>
      intro l hlen _ _
      have hnil : l = [] := List.eq_nil_of_length_eq_zero (Nat.le_zero.mp hlen)
      subst hnil
      refine ⟨?_, ?_, ?_⟩
      · intro c hc; rw [chunkWords] at hc; exact absurd hc (List.not_mem_nil c)
      · rw [chunkWords]; exact List.chain'_nil
      · intro c hc; rw [chunkWords] at hc; exact Option.noConfusion hc
  | succ n ih =>
      intro l hlen hse hch
      cases l with
      | nil =>
          refine ⟨?_, ?_, ?_⟩
          · intro c hc; rw [chunkWords] at hc; exact absurd hc (List.not_mem_nil c)
          · rw [chunkWords]; exact List.chain'_nil
          · intro c hc; rw [chunkWords] at hc; exact Option.noConfusion hc
      | cons w ws =>
          have hsplit : (w :: ws.take 3) ++ ws.drop 3 = w :: ws := by
            simp [List.take_append_drop]
          have hchsplit := hch
          rw [← hsplit] at hchsplit
          obtain ⟨hchg, hchrest, hcross⟩ := List.chain'_append.mp hchsplit
          have hse_g : ∀ x ∈ w :: ws.take 3, x.start ≤ x.endTime := by
            intro x hx
            apply hse
            rw [← hsplit]
            exact List.mem_append.mpr (Or.inl hx)
          have hse_rest : ∀ x ∈ ws.drop 3, x.start ≤ x.endTime := by
            intro x hx
            apply hse
            rw [← hsplit]
            exact List.mem_append.mpr (Or.inr hx)
          have hlen_rest : (ws.drop 3).length ≤ n := by
            simp only [List.length_drop]
            simp only [List.length_cons] at hlen
            omega
          obtain ⟨ih1, ih2, ih3⟩ := ih (ws.drop 3) hlen_rest hse_rest hchrest
          rw [chunkWords_cons]
          refine ⟨?_, ?_, ?_⟩
          · intro c hc
            rcases List.mem_cons.mp hc with hc | hc
            · subst hc
              exact head_start_le_lastD_end (ws.take 3) w hse_g hchg
            · exact ih1 c hc
          · rw [List.chain'_cons']
            refine ⟨?_, ih2⟩
            intro c hcHead
            have hcHead' : (chunkWords (ws.drop 3)).head? = some c :=
              Option.mem_def.mp hcHead
            obtain ⟨w0, hw0, hcw0⟩ := ih3 c hcHead'
            have hgap : wordGap ((w :: ws.take 3).getLastD default) w0 := by
              apply hcross
              · rw [getLast?_cons_eq_getLastD]; rfl
              · rw [hw0]; rfl
            show chunkGap _ c
            unfold chunkGap
            unfold wordGap at hgap
            rw [hcw0]
            exact hgap
          · intro c hc
            simp only [List.head?_cons, Option.some.injEq] at hc
            subst hc
            exact ⟨w, rfl, rfl⟩

theorem chunkGap_all (l : List Chunk) :
    ∀ (a : Chunk), (∀ c ∈ l, c.start ≤ c.endTime) →
      List.Chain' chunkGap (a :: l) → ∀ b ∈ l, chunkGap a b := by
  induction l with
  | nil => intro a _ _ b hb; exact absurd hb (List.not_mem_nil b)
  | cons x xs ih =>
      intro a hwf hch b hb
      have hch' := List.chain'_cons.mp hch
      rcases List.mem_cons.mp hb with hb | hb
      · subst hb; exact hch'.1
      · have hx : x.start ≤ x.endTime := hwf x (List.mem_cons_self x xs)
        have hxb := ih x (fun c hc => hwf c (List.mem_cons_of_mem x hc)) hch'.2 b hb
        unfold chunkGap at hch' hxb ⊢
        linarith [hch'.1]

theorem pairwise_of_chain_chunks (l : List Chunk)
    (hwf : ∀ c ∈ l, c.start ≤ c.endTime)
    (hch : List.Chain' chunkGap l) : l.Pairwise chunkGap := by
  induction l with
  | nil => exact List.Pairwise.nil
  | cons a l ih =>
      refine List.pairwise_cons.mpr ⟨?_, ?_⟩
      · exact chunkGap_all l a (fun c hc => hwf c (List.mem_cons_of_mem a hc)) hch
      · exact ih (fun c hc => hwf c (List.mem_cons_of_mem a hc)) (List.Chain'.tail hch)

theorem countP_active_le_one (l : List Chunk)
    (hwf : ∀ c ∈ l, c.start ≤ c.endTime)
    (hpw : l.Pairwise chunkGap) (t : ℚ) :
    l.countP (fun c => chunkActive c t) ≤ 1 := by
  induction l with
  | nil => simp
  | cons a l ih =>
      obtain ⟨hgaps, hpw'⟩ := List.pairwise_cons.mp hpw
      rw [List.countP_cons]
      by_cases ha : chunkActive a t = true
      · have hzero : l.countP (fun c => chunkActive c t) = 0 := by
          rw [List.countP_eq_zero]
          intro b hb
          have hab := hgaps b hb
          unfold chunkGap at hab
          have hta : t ≤ a.endTime := by
            have := ha
            unfold chunkActive at this
            simp only [Bool.and_eq_true, decide_eq_true_eq] at this
            exact this.2
          unfold chunkActive
          simp only [Bool.and_eq_true, decide_eq_true_eq, not_and]
          intro hbt
          linarith
        rw [hzero, ha]
        simp
      · have ha' : (chunkActive a t) = false := Bool.eq_false_iff.mpr ha
        rw [ha']
        simp only [if_false, Bool.false_eq_true, add_zero]
        exact ih (fun c hc => hwf c (List.mem_cons_of_mem a hc)) hpw'

/-- C6, amended. For caption chunks built from word timestamps whose
spans are well-formed (`start ≤ end`) and *strictly* separated
(`word[i].end < word[i+1].start`), at most one chunk satisfies
`start ≤ t ≤ end` at any queried time; and at any time at which no chunk is
active, the caption renderer returns the underlying frame unmodified.
(The original claim assumed only monotonically non-decreasing times; when a
word's end coincides with the next word's start at a 4-word boundary, the two
adjacent chunks both satisfy the closed-interval test — see the
counterexample.  The code still renders only the first matching chunk.) -/
theorem c6_at_most_one_active_chunk (ws : List WordTimestamp)
    (hse : ∀ w ∈ ws, w.start ≤ w.endTime)
    (hsep : List.Chain' wordGap ws) :
    (∀ t : ℚ, (chunkWords ws).countP (fun c => chunkActive c t) ≤ 1) ∧
      (∀ (Frame : Type) (render : Chunk → Frame → Frame) (getFrame : ℚ → Frame)
        (t : ℚ), (∀ c ∈ chunkWords ws, chunkActive c t = false) →
        renderFrame render getFrame (chunkWords ws) t = getFrame t) := by
  obtain ⟨hwf, hch, _⟩ := chunkWords_wf_chain ws.length ws le_rfl hse hsep
  constructor
  · intro t
    exact countP_active_le_one (chunkWords ws) hwf
      (pairwise_of_chain_chunks (chunkWords ws) hwf hch) t
  · intro Frame render getFrame t hnone
    unfold renderFrame
    have hfind : findActiveChunk (chunkWords ws) t = none := by
      unfold findActiveChunk
      rw [List.find?_eq_none]
      intro c hc
      rw [hnone c hc]
      exact Bool.false_ne_true
    rw [hfind]

/-- Witness for the amended C6: two strictly separated words, queried between
the spans. -/
theorem c6_at_most_one_active_chunk_witness :
    (chunkWords [⟨"a", 0, 1⟩, ⟨"b", (2:ℚ), 3⟩]).countP
        (fun c => chunkActive c (3/2)) ≤ 1 :=
  (c6_at_most_one_active_chunk [⟨"a", 0, 1⟩, ⟨"b", (2:ℚ), 3⟩]
      (by intro w hw
          rcases List.mem_cons.mp hw with h | h
          · rw [h]; norm_num
          · rcases List.mem_cons.mp h with h | h
            · rw [h]; norm_num
            · exact absurd h (List.not_mem_nil w))
      (by refine List.chain'_cons.mpr ⟨?_, ?_⟩
          · show (1:ℚ) < 2; norm_num
          · exact List.chain'_singleton _)).1 (3/2)

/-- C6, counterexample. The eight words above have monotonically
non-decreasing times (`start ≤ end` within each word, each end equals the
next start), yet at playback time `t = 4` two chunks — `[0,4]` and `[4,8]` —
both satisfy `start ≤ t ≤ end`, refuting "at most one chunk satisfies
`start <= t <= end`" under the claim's hypothesis. -/
theorem c6_counterexample :
    (∀ w ∈ c6Words, w.start ≤ w.endTime) ∧
      List.Chain' (fun a b => a.endTime ≤ b.start) c6Words ∧
      (chunkWords c6Words).countP (fun c => chunkActive c 4) = 2 := by
  refine ⟨?_, ?_, ?_⟩
  · intro w hw
    simp only [c6Words, List.mem_cons, List.not_mem_nil, or_false] at hw
    rcases hw with rfl | rfl | rfl | rfl | rfl | rfl | rfl | rfl <;> norm_num
  · simp only [c6Words, List.chain'_cons, List.chain'_singleton]
    norm_num
  · simp only [c6Words, chunkWords_cons, List.take, List.drop, chunkWords,
      List.countP_cons, List.countP_nil, chunkActive, List.getLastD_cons]
    norm_num


/-- C7. For a present music file with `0 < duration < target`:
the mixed output composites the *unmodified* voice with a music layer that is
the music looped `int(target/duration) + 1` times — strictly exceeding the
target — then truncated to exactly the target duration and volume-scaled by
the fixed `music_volume` factor; `int(target/duration)` whole repetitions fit
inside the truncated layer (3 of them for a 20 s file under a 60 s target);
and with no music path, or a missing file, the output is the voice track
unchanged. -/
theorem c7_mix_audio_loops (voice : Audio) (p : String)
    (musicDur musicVolume target : ℚ) (ex : String → Bool)
    (hpos : 0 < musicDur) (hlt : musicDur < target) (hex : ex p = true) :
    finalAudio voice (some p) ex musicDur musicVolume target =
        Audio.mixLayers voice (Audio.volume (Audio.subclip
          (Audio.loop (loopsNeeded target musicDur) (Audio.file p musicDur))
          target) musicVolume) ∧
      target < (Audio.loop (loopsNeeded target musicDur)
        (Audio.file p musicDur)).duration ∧
      (Audio.subclip (Audio.loop (loopsNeeded target musicDur)
        (Audio.file p musicDur)) target).duration = target ∧
      ((truncInt (target / musicDur)).toNat : ℚ) * musicDur ≤ target ∧
      (∀ (v' : Audio) (e' : String → Bool),
        finalAudio v' none e' musicDur musicVolume target = v') ∧
      (∀ (v' : Audio) (e' : String → Bool), e' p = false →
        finalAudio v' (some p) e' musicDur musicVolume target = v') := by
  have hq : 0 < target / musicDur := div_pos (lt_trans hpos hlt) hpos
  have htr : truncInt (target / musicDur) = ⌊target / musicDur⌋ := by
    unfold truncInt
    rw [if_neg (not_lt.mpr (le_of_lt hq))]
  have hk0 : (0:ℤ) ≤ ⌊target / musicDur⌋ := Int.floor_nonneg.mpr (le_of_lt hq)
  have hcast : ((truncInt (target / musicDur)).toNat : ℚ) =
      ((⌊target / musicDur⌋ : ℤ) : ℚ) := by
    rw [htr]
    exact_mod_cast congrArg (fun z : ℤ => (z : ℚ)) (Int.toNat_of_nonneg hk0)
  have hloop : ((loopsNeeded target musicDur : ℕ) : ℚ) =
      ((⌊target / musicDur⌋ : ℤ) : ℚ) + 1 := by
    have h1 : ((⌊target / musicDur⌋.toNat + 1 : ℕ) : ℤ) = ⌊target / musicDur⌋ + 1 := by
      have := Int.toNat_of_nonneg hk0
      omega
    unfold loopsNeeded
    rw [htr]
    exact_mod_cast h1
  have hexceed : target < (Audio.loop (loopsNeeded target musicDur)
      (Audio.file p musicDur)).duration := by
    show target < ((loopsNeeded target musicDur : ℕ) : ℚ) * musicDur
    rw [hloop]
    have hfl : target / musicDur < ⌊target / musicDur⌋ + 1 := Int.lt_floor_add_one _
    calc target = target / musicDur * musicDur := by field_simp
      _ < ((⌊target / musicDur⌋ : ℚ) + 1) * musicDur := by
          exact mul_lt_mul_of_pos_right hfl hpos
  refine ⟨?_, hexceed, ?_, ?_, ?_, ?_⟩
  · unfold finalAudio
    dsimp only
    rw [if_pos hex]
    unfold mix_audio
    dsimp only
    rw [if_pos hlt]
  · show min target (Audio.loop (loopsNeeded target musicDur)
      (Audio.file p musicDur)).duration = target
    exact min_eq_left (le_of_lt hexceed)
  · rw [hcast]
    have := Int.floor_le (target / musicDur)
    calc ((⌊target / musicDur⌋ : ℤ) : ℚ) * musicDur
        ≤ target / musicDur * musicDur := mul_le_mul_of_nonneg_right this (le_of_lt hpos)
      _ = target := by field_simp
  · intro v' e'; rfl
  · intro v' e' he'
    unfold finalAudio
    dsimp only
    rw [if_neg (by rw [he']; exact Bool.false_ne_true)]

/-- Witness for C7 at the spec's own example: a 20 s music file under a 60 s
target yields a music layer of exactly 60 s, the looped source strictly
exceeds 60 s, and `int(60/20) = 3` whole repetitions fit. -/
theorem c7_mix_audio_loops_witness :
    0 < (20:ℚ) ∧ (20:ℚ) < 60 ∧
      (Audio.subclip (Audio.loop (loopsNeeded 60 20) (Audio.file "m" 20))
        60).duration = 60 ∧
      (truncInt ((60:ℚ) / 20)).toNat = 3 := by
  refine ⟨by norm_num, by norm_num, ?_, ?_⟩
  · exact (c7_mix_audio_loops (Audio.file "v" 60) "m" 20 (1/10) 60 (fun _ => true)
      (by norm_num) (by norm_num) rfl).2.2.1
  · unfold truncInt
    rw [if_neg (by norm_num)]
    have h3 : (⌊(60:ℚ) / 20⌋ : ℤ) = 3 := by norm_num
    rw [h3]
    rfl

/-- C8. If encoding fails and hardware encoding was attempted
(`use_nvenc`), the encoder retries exactly once, with the software codec
`libx264` at the safer `medium` preset, and the overall outcome is that
retry's outcome (a second failure propagates with no further retry); if
encoding fails when hardware encoding was never attempted, the failure
propagates immediately with a single attempt; and a first-attempt success
never triggers the fallback. -/
theorem c8_encoder_fallback (useNvenc : Bool) (encodeOk : EncodeAttempt → Bool) :
    (useNvenc = true → encodeOk ⟨"h264_nvenc", "fast"⟩ = false →
      exportVideo useNvenc encodeOk =
        (encodeOk ⟨"libx264", "medium"⟩,
          [⟨"h264_nvenc", "fast"⟩, ⟨"libx264", "medium"⟩])) ∧
      (useNvenc = false → encodeOk ⟨"libx264", "medium"⟩ = false →
        exportVideo useNvenc encodeOk = (false, [⟨"libx264", "medium"⟩])) ∧
      (useNvenc = true → encodeOk ⟨"h264_nvenc", "fast"⟩ = true →
        exportVideo useNvenc encodeOk = (true, [⟨"h264_nvenc", "fast"⟩])) ∧
      (useNvenc = false → encodeOk ⟨"libx264", "medium"⟩ = true →
        exportVideo useNvenc encodeOk = (true, [⟨"libx264", "medium"⟩])) := by
  refine ⟨?_, ?_, ?_, ?_⟩ <;> intro hn hok <;> subst hn <;>
    simp only [exportVideo, if_true, if_false, Bool.false_eq_true] <;>
    rw [hok] <;> simp

/-- Witness for C8: with hardware encoding configured and an encoder that
always fails, exactly the two attempts are made and the failure propagates. -/
theorem c8_encoder_fallback_witness :
    exportVideo true (fun _ => false) =
      (false, [⟨"h264_nvenc", "fast"⟩, ⟨"libx264", "medium"⟩]) :=
  (c8_encoder_fallback true (fun _ => false)).1 rfl rfl

end Faceless

